import Mathlib

/-!
Verification of the `igo` in-process DAG orchestration engine
(`core/feature_flag.py` and `core/graph_engine.py`) against its
natural-language specification.

Python dictionaries are modelled as insertion-ordered association lists
with in-place update (`dictInsert`) and defaulting lookup (`dictGet`).
Python exceptions are modelled as the `Except String` monad, carrying
`str(error)`.  Wall-clock measurements (`time.time()` differences,
formatted to three decimals) are opaque to every property under
verification, so the formatted elapsed-time strings are passed to the
embedded functions as parameters.
-/

namespace Igo

/-- Python `dict[key] = value`: replace the value in place when the key is
present, append the pair otherwise (insertion order preserved). -/
def dictInsert {α : Type} : List (String × α) → String → α → List (String × α)
  | [], k, v => [(k, v)]
  | (k', v') :: rest, k, v =>
      if k' = k then (k', v) :: rest else (k', v') :: dictInsert rest k v

/-- Python `dict.get(key)`: the first (hence, under `dictInsert` discipline,
the only) binding of the key, if any. -/
def dictGet {α : Type} : List (String × α) → String → Option α
  | [], _ => none
  | (k', v') :: rest, k => if k' = k then some v' else dictGet rest k

theorem dictGet_dictInsert {α : Type} (d : List (String × α)) (k k' : String) (v : α) :
    dictGet (dictInsert d k v) k' = if k = k' then some v else dictGet d k' := by
  induction d with
  | nil =>
      by_cases h : k = k' <;> simp [dictInsert, dictGet, h]
  | cons hd tl ih =>
      obtain ⟨k0, v0⟩ := hd
      by_cases h0 : k0 = k
      · subst h0
        by_cases h : k0 = k' <;> simp [dictInsert, dictGet, h]
      · by_cases h : k0 = k'
        · subst h
          simp [dictInsert, dictGet, h0, Ne.symm h0]
        · simp [dictInsert, dictGet, h0, h, ih]

/-- Python `str.lower()`: lowercase every character (the keys and values
involved are ASCII, where `Char.toLower` agrees with Python). -/
def pyLower (s : String) : String := String.mk (s.data.map Char.toLower)

/-- Python `str.startswith(pre)`, character by character. -/
def charsStartWith : List Char → List Char → Bool
  | _, [] => true
  | [], _ :: _ => false
  | c :: cs, d :: ds => c == d && charsStartWith cs ds

/-- Python `s.startswith(pre)`. -/
def pyStartsWith (s pre : String) : Bool := charsStartWith s.data pre.data

/-- Python slicing `s[n:]` by characters (the remainder after splitting on
a prefix of length `n`). -/
def pyDropChars (s : String) (n : Nat) : String := String.mk (s.data.drop n)

/-! ## Feature-flag store (`core/feature_flag.py`) -/

/-- Embeds `FEATURE_FLAG_PREFIX = 'feature_flag_'`. -/
def featureFlagPrefixStr : String := "feature_flag_"

/-- `FeatureFlagMgr`: the mutable state is the `flags` dict.  The mutex
serialises refreshes against lookups; each embedded operation is one
critical section. -/
structure FeatureFlagMgr where
  flags : List (String × Bool)
deriving DecidableEq, Repr

/-- `FeatureFlagMgr.__init__`: `self.flags = {}`. -/
def FeatureFlagMgr.init : FeatureFlagMgr := { flags := [] }

/-- `FeatureFlagMgr._as_boolean`: lowercase the value (Python
`str(value).lower()`, embedded as `pyLower`), map `'true'` and `'1'` to
`True`, `'false'` and `'0'` to `False`, anything else to `False`. -/
def FeatureFlagMgr.as_boolean (value : String) : Bool :=
  let value := pyLower value
  if value = "true" ∨ value = "1" then true
  else if value = "false" ∨ value = "0" then false
  else false

/-- Loop body of `FeatureFlagMgr._update_flags_from_env` for one
environment entry.  If the lowercased key starts with the prefix, store
the parsed value under the key's remainder after the prefix:
`lower_key.split(FEATURE_FLAG_PREFIX, 1)[1]` — since `lower_key` starts
with the prefix, the first occurrence is at index 0, so the second piece
is `lower_key` with the prefix dropped.  Otherwise the entry is ignored. -/
def updateFlagsStep (fl : List (String × Bool)) (kv : String × String) :
    List (String × Bool) :=
  let lower_key := pyLower kv.1
  if pyStartsWith lower_key featureFlagPrefixStr then
    dictInsert fl (pyDropChars lower_key featureFlagPrefixStr.length)
      (FeatureFlagMgr.as_boolean kv.2)
  else fl

/-- `FeatureFlagMgr._update_flags_from_env`: one refresh pass over the
environment (a key/value list), applying `updateFlagsStep` to every
variable in iteration order. -/
def FeatureFlagMgr.update_flags_from_env (m : FeatureFlagMgr)
    (env : List (String × String)) : FeatureFlagMgr :=
  { flags := env.foldl updateFlagsStep m.flags }

/-- `FeatureFlagMgr.is_enabled`: `self.flags.get(feature_name, False)`. -/
def FeatureFlagMgr.is_enabled (m : FeatureFlagMgr) (feature_name : String) : Bool :=
  (dictGet m.flags feature_name).getD false

/-- Specification-side helper for stating the refresh theorem: does this
environment entry name the flag `s` (lowercased key = prefix ++ s)? -/
def flagEnvStep (s : String) (acc : Option String) (kv : String × String) : Option String :=
  if pyStartsWith (pyLower kv.1) featureFlagPrefixStr ∧
      pyDropChars (pyLower kv.1) featureFlagPrefixStr.length = s then some kv.2 else acc

/-- Specification-side helper for stating the refresh theorem: the value of
the last environment entry whose lowercased key is the prefix followed by
`s`, if any. -/
def envLastValue (env : List (String × String)) (s : String) : Option String :=
  env.foldl (flagEnvStep s) none

theorem envLastValue_foldl (s : String) (env : List (String × String)) (acc : Option String) :
    env.foldl (flagEnvStep s) acc
      = match envLastValue env s with
        | some v => some v
        | none => acc := by
  induction env generalizing acc with
  | nil => simp [envLastValue]
  | cons kv env ih =>
      have ih1 := ih (flagEnvStep s acc kv)
      have ih2 := ih (flagEnvStep s none kv)
      simp only [envLastValue, List.foldl_cons] at ih1 ih2 ⊢
      rw [ih1, ih2]
      cases env.foldl (flagEnvStep s) none with
      | none =>
          by_cases h : pyStartsWith (pyLower kv.1) featureFlagPrefixStr ∧
              pyDropChars (pyLower kv.1) featureFlagPrefixStr.length = s
          · simp [flagEnvStep, h]
          · simp [flagEnvStep, h]
      | some v => rfl

theorem update_flags_fold_get (s : String) (env : List (String × String))
    (fl : List (String × Bool)) :
    dictGet (env.foldl updateFlagsStep fl) s
      = match envLastValue env s with
        | some v => some (FeatureFlagMgr.as_boolean v)
        | none => dictGet fl s := by
  induction env generalizing fl with
  | nil => simp [envLastValue]
  | cons kv env ih =>
      have hcons : envLastValue (kv :: env) s
          = match envLastValue env s with
            | some v => some v
            | none => flagEnvStep s none kv := by
        rw [envLastValue, List.foldl_cons]
        exact envLastValue_foldl s env _
      rw [List.foldl_cons, ih, hcons]
      by_cases hpre : pyStartsWith (pyLower kv.1) featureFlagPrefixStr
      · by_cases hsuf : pyDropChars (pyLower kv.1) featureFlagPrefixStr.length = s
        · cases hl : envLastValue env s <;>
            simp [flagEnvStep, updateFlagsStep, hpre, hsuf, dictGet_dictInsert]
        · cases hl : envLastValue env s <;>
            simp [flagEnvStep, updateFlagsStep, hpre, hsuf, dictGet_dictInsert]
      · cases hl : envLastValue env s <;>
          simp [flagEnvStep, updateFlagsStep, hpre]

theorem update_flags_fold_id (env : List (String × String))
    (fl : List (String × Bool))
    (h : ∀ kv ∈ env, ¬ pyStartsWith (pyLower kv.1) featureFlagPrefixStr) :
    env.foldl updateFlagsStep fl = fl := by
  induction env generalizing fl with
  | nil => rfl
  | cons kv env ih =>
      rw [List.foldl_cons]
      have hkv : updateFlagsStep fl kv = fl := by
        simp [updateFlagsStep, h kv (List.mem_cons_self kv env)]
      rw [hkv]
      exact ih fl (fun kv hk => h kv (List.mem_cons_of_mem _ hk))

/-- Claim C7: the flag-value parser `_as_boolean` is total — a function on
all of `String`, so it never raises — and maps case-insensitive `"true"`
or `"1"` to `True`, case-insensitive `"false"` or `"0"` to `False`, and
every other string to `False`. -/
theorem c7_as_boolean_total :
    (∀ s : String, pyLower s = "true" ∨ pyLower s = "1" →
        FeatureFlagMgr.as_boolean s = true)
    ∧ (∀ s : String, pyLower s = "false" ∨ pyLower s = "0" →
        FeatureFlagMgr.as_boolean s = false)
    ∧ (∀ s : String, ¬ (pyLower s = "true" ∨ pyLower s = "1") →
        FeatureFlagMgr.as_boolean s = false) := by
  refine ⟨?_, ?_, ?_⟩
  · intro s h
    simp only [FeatureFlagMgr.as_boolean]
    rw [if_pos h]
  · intro s h
    rcases h with h | h <;> simp [FeatureFlagMgr.as_boolean, h]
  · intro s h
    simp only [FeatureFlagMgr.as_boolean]
    rw [if_neg h]
    split <;> rfl

/-- Witness for C7 at concrete parser inputs. -/
theorem c7_as_boolean_total_witness :
    FeatureFlagMgr.as_boolean "TRUE" = true
    ∧ FeatureFlagMgr.as_boolean "0" = false
    ∧ FeatureFlagMgr.as_boolean "banana" = false :=
  ⟨c7_as_boolean_total.1 "TRUE" (Or.inl (by decide)),
   c7_as_boolean_total.2.1 "0" (Or.inr (by decide)),
   c7_as_boolean_total.2.2 "banana" (by decide)⟩

/-- Claim C8: one refresh pass consumes every environment variable whose
lowercased name begins with `feature_flag_`, storing the parsed value
under the lowercased remainder of the name (last entry for a suffix
winning); `FEATURE_FLAG_X=1` and `feature_flag_x=1` both enable flag
`"x"`; variables without the prefix leave the store unchanged. -/
theorem c8_refresh_prefix_semantics :
    (∀ (m : FeatureFlagMgr) (env : List (String × String)) (s : String),
        dictGet (m.update_flags_from_env env).flags s
          = match envLastValue env s with
            | some v => some (FeatureFlagMgr.as_boolean v)
            | none => dictGet m.flags s)
    ∧ (FeatureFlagMgr.init.update_flags_from_env
        [("FEATURE_FLAG_X", "1")]).is_enabled "x" = true
    ∧ (FeatureFlagMgr.init.update_flags_from_env
        [("feature_flag_x", "1")]).is_enabled "x" = true
    ∧ (∀ (m : FeatureFlagMgr) (env : List (String × String)),
        (∀ kv ∈ env, ¬ pyStartsWith (pyLower kv.1) featureFlagPrefixStr) →
          m.update_flags_from_env env = m) := by
  refine ⟨?_, by decide, by decide, ?_⟩
  · intro m env s
    exact update_flags_fold_get s env m.flags
  · intro m env h
    show FeatureFlagMgr.mk (env.foldl updateFlagsStep m.flags) = m
    rw [update_flags_fold_id env m.flags h]

/-- Witness for C8: the unchanged-store conjunct applied to a concrete
store and a concrete prefix-free environment. -/
theorem c8_refresh_prefix_semantics_witness :
    FeatureFlagMgr.update_flags_from_env { flags := [("alpha", true)] }
        [("PATH", "/usr/bin"), ("HOME", "/root")]
      = { flags := [("alpha", true)] } :=
  c8_refresh_prefix_semantics.2.2.2 { flags := [("alpha", true)] }
    [("PATH", "/usr/bin"), ("HOME", "/root")] (by decide)

/-- Claim C9: `is_enabled` returns `False` for every name absent from the
store's mapping (never raising), and in particular returns `False` for
every name on a freshly constructed store. -/
theorem c9_absent_flag_is_false :
    (∀ (m : FeatureFlagMgr) (s : String),
        dictGet m.flags s = none → m.is_enabled s = false)
    ∧ (∀ s : String, FeatureFlagMgr.init.is_enabled s = false) := by
  constructor
  · intro m s h
    simp [FeatureFlagMgr.is_enabled, h]
  · intro s
    simp [FeatureFlagMgr.is_enabled, FeatureFlagMgr.init, dictGet]

/-- Witness for C9 at a concrete store and absent name. -/
theorem c9_absent_flag_is_false_witness :
    FeatureFlagMgr.is_enabled { flags := [("alpha", true)] } "beta" = false :=
  c9_absent_flag_is_false.1 { flags := [("alpha", true)] } "beta" (by decide)

/-! ## Computational node (`core/graph_engine.py`, `ComputationalNode.run`)

One `run` invocation processes a fixed record and output mapping, so each
collaborator is embedded by the outcome it produces on that invocation:

* `barrier` — the result of `await gather(parent.event.wait() ...)` (an
  `Except` so that a failure of the parent barrier is representable);
* `is_enabled` — the result of `feature_flag_manager.is_enabled(flag)`
  (an `Except` so that a failing flag check is representable; the real
  `FeatureFlagMgr.is_enabled` embedded above always succeeds);
* `exe_condition` — `None`, or the result of `exe_condition(record, output)`;
* `exe_function` — `None`, or the result of `exe_function(record, output,
  **exe_kwargs)` with its value discarded (`Unit`), keeping only success
  or the raised error.

Elapsed wall times are opaque to the properties under verification; their
three-decimal renderings are the parameters `t_awaiting_parents` (from
`t0`) and `t_execution` (from `t1`). -/

/-- A `ComputationalNode` as observed by one `run` invocation.  `parents`
holds object identities (the graph model below indexes nodes by `Nat`);
`run` only tests its truthiness, mirroring `if self.parents:`. -/
structure ComputationalNode where
  name : String
  parents : List Nat
  feature_flag : Option String
  exe_function : Option (Except String Unit)
  exe_condition : Option (Except String Bool)

/-- Result of one `run` invocation: the returned `perf_stats` dict (its
keys are pairwise distinct on every path, so the insertion-ordered list is
the dict) and whether `self.event` is set when `run` returns. -/
structure NodeRunResult where
  perf_stats : List (String × String)
  event_set : Bool
deriving DecidableEq, Repr

/-- Dispatch step of `run` (`if self.exe_function: ...` through the final
two `perf_stats` assignments): run the work if present, discarding its
value; on success record `awaiting_parents` and `execution`. -/
def runWork (node : ComputationalNode) (t_awaiting_parents t_execution : String) :
    Except String (List (String × String)) :=
  match node.exe_function with
  | some w =>
      match w with
      | .error e => .error e
      | .ok _ =>
          .ok [(node.name ++ ".awaiting_parents", t_awaiting_parents),
               (node.name ++ ".execution", t_execution)]
  | none =>
      .ok [(node.name ++ ".awaiting_parents", t_awaiting_parents),
           (node.name ++ ".execution", t_execution)]

/-- Predicate gate of `run` (`if self.exe_condition: ...`): when the
predicate is present and false, return the skip entry alone. -/
def runGateCond (node : ComputationalNode) (t_awaiting_parents t_execution : String) :
    Except String (List (String × String)) :=
  match node.exe_condition with
  | some c =>
      match c with
      | .error e => .error e
      | .ok ok =>
          if !ok then .ok [(node.name ++ ".exe_condition", "False")]
          else runWork node t_awaiting_parents t_execution
  | none => runWork node t_awaiting_parents t_execution

/-- Feature-flag gate of `run` (`if self.feature_flag: ...`): when the flag
is named and disabled, return the skip entry alone. -/
def runGateFlag (node : ComputationalNode) (is_enabled : String → Except String Bool)
    (t_awaiting_parents t_execution : String) :
    Except String (List (String × String)) :=
  match node.feature_flag with
  | some ff =>
      match is_enabled ff with
      | .error e => .error e
      | .ok enabled =>
          if !enabled then .ok [(node.name ++ ".feature_flag", "False")]
          else runGateCond node t_awaiting_parents t_execution
  | none => runGateCond node t_awaiting_parents t_execution

/-- The `try` block of `ComputationalNode.run`: parent barrier (only when
`self.parents` is non-empty), then the gates and dispatch. -/
def nodeRunBody (node : ComputationalNode) (barrier : Except String Unit)
    (is_enabled : String → Except String Bool)
    (t_awaiting_parents t_execution : String) :
    Except String (List (String × String)) :=
  match (if node.parents ≠ [] then barrier else .ok ()) with
  | .error e => .error e
  | .ok _ => runGateFlag node is_enabled t_awaiting_parents t_execution

/-- `ComputationalNode.run`: the `try` body; `except Exception as e` turns
a raised error into the single entry `name ++ ".exception" = str(e)`; the
`finally` block sets `self.event` on every path. -/
def ComputationalNode.run (node : ComputationalNode) (barrier : Except String Unit)
    (is_enabled : String → Except String Bool)
    (t_awaiting_parents t_execution : String) : NodeRunResult :=
  { perf_stats :=
      match nodeRunBody node barrier is_enabled t_awaiting_parents t_execution with
      | .ok stats => stats
      | .error e => [(node.name ++ ".exception", e)]
    event_set := true }

/-- `self.parents` is falsy, or the awaited barrier completed normally. -/
def barrierOk (node : ComputationalNode) (barrier : Except String Unit) : Prop :=
  node.parents = [] ∨ barrier = .ok ()

/-- No feature flag is named, or the flag check returned `True`. -/
def flagOk (node : ComputationalNode) (is_enabled : String → Except String Bool) : Prop :=
  match node.feature_flag with
  | none => True
  | some ff => is_enabled ff = .ok true

/-- No predicate is attached, or it returned `True`. -/
def condOk (node : ComputationalNode) : Prop :=
  match node.exe_condition with
  | none => True
  | some c => c = .ok true

theorem nodeRunBody_of_barrierOk (node : ComputationalNode)
    (barrier : Except String Unit) (is_enabled : String → Except String Bool)
    (tA tE : String) (h : barrierOk node barrier) :
    nodeRunBody node barrier is_enabled tA tE = runGateFlag node is_enabled tA tE := by
  rcases h with h | h
  · simp [nodeRunBody, h]
  · subst h
    simp [nodeRunBody]

theorem runGateFlag_of_flagOk (node : ComputationalNode)
    (is_enabled : String → Except String Bool) (tA tE : String)
    (h : flagOk node is_enabled) :
    runGateFlag node is_enabled tA tE = runGateCond node tA tE := by
  cases hff : node.feature_flag with
  | none => simp [runGateFlag, hff]
  | some ff =>
      have h' : is_enabled ff = .ok true := by
        unfold flagOk at h
        rw [hff] at h
        exact h
      simp [runGateFlag, hff, h']

theorem runGateCond_of_condOk (node : ComputationalNode) (tA tE : String)
    (h : condOk node) :
    runGateCond node tA tE = runWork node tA tE := by
  cases hc : node.exe_condition with
  | none => simp [runGateCond, hc]
  | some c =>
      have h' : c = .ok true := by
        unfold condOk at h
        rw [hc] at h
        exact h
      simp [runGateCond, hc, h']

/-- No work function is attached, or it completed without raising. -/
def workOk (node : ComputationalNode) : Prop :=
  match node.exe_function with
  | none => True
  | some w => w = .ok ()

theorem runWork_of_workOk (node : ComputationalNode) (tA tE : String)
    (h : workOk node) :
    runWork node tA tE
      = .ok [(node.name ++ ".awaiting_parents", tA),
             (node.name ++ ".execution", tE)] := by
  cases hw : node.exe_function with
  | none => simp [runWork, hw]
  | some w =>
      have h' : w = .ok () := by
        unfold workOk at h
        rw [hw] at h
        exact h
      simp [runWork, hw, h']

theorem runWork_ok_shape (node : ComputationalNode) (tA tE : String)
    (s : List (String × String)) (h : runWork node tA tE = .ok s) :
    s = [(node.name ++ ".awaiting_parents", tA),
         (node.name ++ ".execution", tE)] := by
  unfold runWork at h
  cases hw : node.exe_function with
  | none =>
      rw [hw] at h
      cases h
      rfl
  | some w =>
      rw [hw] at h
      cases w with
      | error e => cases h
      | ok u =>
          cases h
          rfl

theorem runGateCond_ok_shape (node : ComputationalNode) (tA tE : String)
    (s : List (String × String)) (h : runGateCond node tA tE = .ok s) :
    s = [(node.name ++ ".exe_condition", "False")]
    ∨ s = [(node.name ++ ".awaiting_parents", tA),
           (node.name ++ ".execution", tE)] := by
  unfold runGateCond at h
  cases hc : node.exe_condition with
  | none =>
      rw [hc] at h
      exact Or.inr (runWork_ok_shape node tA tE s h)
  | some c =>
      rw [hc] at h
      cases c with
      | error e => cases h
      | ok ok =>
          cases ok with
          | false =>
              simp at h
              exact Or.inl h.symm
          | true =>
              simp at h
              exact Or.inr (runWork_ok_shape node tA tE s h)

theorem runGateFlag_ok_shape (node : ComputationalNode)
    (is_enabled : String → Except String Bool) (tA tE : String)
    (s : List (String × String)) (h : runGateFlag node is_enabled tA tE = .ok s) :
    s = [(node.name ++ ".feature_flag", "False")]
    ∨ s = [(node.name ++ ".exe_condition", "False")]
    ∨ s = [(node.name ++ ".awaiting_parents", tA),
           (node.name ++ ".execution", tE)] := by
  unfold runGateFlag at h
  split at h
  · split at h
    · cases h
    · split at h
      · cases h
        exact Or.inl rfl
      · exact Or.inr (runGateCond_ok_shape node tA tE s h)
  · exact Or.inr (runGateCond_ok_shape node tA tE s h)

theorem nodeRunBody_ok_shape (node : ComputationalNode)
    (barrier : Except String Unit) (is_enabled : String → Except String Bool)
    (tA tE : String) (s : List (String × String))
    (h : nodeRunBody node barrier is_enabled tA tE = .ok s) :
    s = [(node.name ++ ".feature_flag", "False")]
    ∨ s = [(node.name ++ ".exe_condition", "False")]
    ∨ s = [(node.name ++ ".awaiting_parents", tA),
           (node.name ++ ".execution", tE)] := by
  unfold nodeRunBody at h
  cases hb : (if node.parents ≠ [] then barrier else .ok ()) with
  | error e =>
      rw [hb] at h
      cases h
  | ok u =>
      rw [hb] at h
      exact runGateFlag_ok_shape node is_enabled tA tE s h

/-- Claim C1: `Node.run` always returns a metrics mapping (it is a total
function into `NodeRunResult`; errors are values of the `Except` monad and
never escape), and an error raised by the parent barrier, by the
feature-flag check, by the predicate, or by the work function is caught
and recorded as the single metrics entry `"{name}.exception" = str(error)`. -/
theorem c1_run_catches_exceptions (node : ComputationalNode)
    (barrier : Except String Unit) (is_enabled : String → Except String Bool)
    (tA tE : String) :
    (∀ e : String, node.parents ≠ [] → barrier = .error e →
        (node.run barrier is_enabled tA tE).perf_stats
          = [(node.name ++ ".exception", e)])
    ∧ (∀ ff e : String, barrierOk node barrier →
        node.feature_flag = some ff → is_enabled ff = .error e →
        (node.run barrier is_enabled tA tE).perf_stats
          = [(node.name ++ ".exception", e)])
    ∧ (∀ e : String, barrierOk node barrier → flagOk node is_enabled →
        node.exe_condition = some (.error e) →
        (node.run barrier is_enabled tA tE).perf_stats
          = [(node.name ++ ".exception", e)])
    ∧ (∀ e : String, barrierOk node barrier → flagOk node is_enabled →
        condOk node → node.exe_function = some (.error e) →
        (node.run barrier is_enabled tA tE).perf_stats
          = [(node.name ++ ".exception", e)]) := by
  refine ⟨?_, ?_, ?_, ?_⟩
  · intro e hp hb
    simp [ComputationalNode.run, nodeRunBody, hp, hb]
  · intro ff e hbar hff he
    simp [ComputationalNode.run,
      nodeRunBody_of_barrierOk node barrier is_enabled tA tE hbar,
      runGateFlag, hff, he]
  · intro e hbar hflag hc
    simp [ComputationalNode.run,
      nodeRunBody_of_barrierOk node barrier is_enabled tA tE hbar,
      runGateFlag_of_flagOk node is_enabled tA tE hflag,
      runGateCond, hc]
  · intro e hbar hflag hcond hw
    simp [ComputationalNode.run,
      nodeRunBody_of_barrierOk node barrier is_enabled tA tE hbar,
      runGateFlag_of_flagOk node is_enabled tA tE hflag,
      runGateCond_of_condOk node tA tE hcond,
      runWork, hw]

/-- Witness for C1: a node whose work raises, with all gates passing; the
returned metrics consist of the single exception entry. -/
theorem c1_run_catches_exceptions_witness :
    (ComputationalNode.run
        { name := "err_node", parents := [], feature_flag := none,
          exe_function := some (.error "Intentional error occurred"),
          exe_condition := none }
        (.ok ()) (fun _ => .ok true) "0.000" "0.001").perf_stats
      = [("err_node" ++ ".exception", "Intentional error occurred")] :=
  (c1_run_catches_exceptions _ _ _ _ _).2.2.2 "Intentional error occurred"
    (Or.inl rfl) trivial trivial rfl

/-- Claim C2: on every exit path of `Node.run` — success, feature-flag
skip, predicate skip, or exception — the `finally` block has set the
node's done latch by the time `run` returns. -/
theorem c2_done_latch_always_set (node : ComputationalNode)
    (barrier : Except String Unit) (is_enabled : String → Except String Bool)
    (tA tE : String) :
    (node.run barrier is_enabled tA tE).event_set = true := rfl

/-- Claim C4: the returned metrics mapping is exactly one of the four key
sets and nothing else — the flag-skip entry alone, the predicate-skip
entry alone, the exception entry alone, or exactly the two entries
`awaiting_parents` and `execution` — and each arises on its stated path. -/
theorem c4_metrics_exact_key_sets (node : ComputationalNode)
    (barrier : Except String Unit) (is_enabled : String → Except String Bool)
    (tA tE : String) :
    ((node.run barrier is_enabled tA tE).perf_stats
        = [(node.name ++ ".feature_flag", "False")]
     ∨ (node.run barrier is_enabled tA tE).perf_stats
        = [(node.name ++ ".exe_condition", "False")]
     ∨ (∃ e, (node.run barrier is_enabled tA tE).perf_stats
        = [(node.name ++ ".exception", e)])
     ∨ (node.run barrier is_enabled tA tE).perf_stats
        = [(node.name ++ ".awaiting_parents", tA),
           (node.name ++ ".execution", tE)])
    ∧ (∀ ff : String, barrierOk node barrier → node.feature_flag = some ff →
        is_enabled ff = .ok false →
        (node.run barrier is_enabled tA tE).perf_stats
          = [(node.name ++ ".feature_flag", "False")])
    ∧ (barrierOk node barrier → flagOk node is_enabled →
        node.exe_condition = some (.ok false) →
        (node.run barrier is_enabled tA tE).perf_stats
          = [(node.name ++ ".exe_condition", "False")])
    ∧ (∀ e : String, nodeRunBody node barrier is_enabled tA tE = .error e →
        (node.run barrier is_enabled tA tE).perf_stats
          = [(node.name ++ ".exception", e)])
    ∧ (barrierOk node barrier → flagOk node is_enabled → condOk node →
        workOk node →
        (node.run barrier is_enabled tA tE).perf_stats
          = [(node.name ++ ".awaiting_parents", tA),
             (node.name ++ ".execution", tE)]) := by
  refine ⟨?_, ?_, ?_, ?_, ?_⟩
  · cases hbody : nodeRunBody node barrier is_enabled tA tE with
    | error e =>
        refine Or.inr (Or.inr (Or.inl ⟨e, ?_⟩))
        simp [ComputationalNode.run, hbody]
    | ok s =>
        have hshape := nodeRunBody_ok_shape node barrier is_enabled tA tE s hbody
        have hstats : (node.run barrier is_enabled tA tE).perf_stats = s := by
          simp [ComputationalNode.run, hbody]
        rcases hshape with h | h | h
        · exact Or.inl (hstats.trans h)
        · exact Or.inr (Or.inl (hstats.trans h))
        · exact Or.inr (Or.inr (Or.inr (hstats.trans h)))
  · intro ff hbar hff he
    simp [ComputationalNode.run,
      nodeRunBody_of_barrierOk node barrier is_enabled tA tE hbar,
      runGateFlag, hff, he]
  · intro hbar hflag hc
    simp [ComputationalNode.run,
      nodeRunBody_of_barrierOk node barrier is_enabled tA tE hbar,
      runGateFlag_of_flagOk node is_enabled tA tE hflag,
      runGateCond, hc]
  · intro e hbody
    simp [ComputationalNode.run, hbody]
  · intro hbar hflag hcond hwork
    simp [ComputationalNode.run,
      nodeRunBody_of_barrierOk node barrier is_enabled tA tE hbar,
      runGateFlag_of_flagOk node is_enabled tA tE hflag,
      runGateCond_of_condOk node tA tE hcond,
      runWork_of_workOk node tA tE hwork]

/-- Witness for C4: a concrete feature-flag skip yields the single
flag-skip entry. -/
theorem c4_metrics_exact_key_sets_witness :
    (ComputationalNode.run
        { name := "gated", parents := [], feature_flag := some "x",
          exe_function := some (.ok ()), exe_condition := none }
        (.ok ()) (fun _ => .ok false) "0.000" "0.001").perf_stats
      = [("gated" ++ ".feature_flag", "False")] :=
  (c4_metrics_exact_key_sets _ _ _ _ _).2.1 "x" (Or.inl rfl) rfl rfl

/-- Claim C10: when no work function is attached and the gates pass, the
metrics still contain exactly the `awaiting_parents` and `execution`
entries, even though no work was dispatched. -/
theorem c10_no_work_still_emits_timing (node : ComputationalNode)
    (barrier : Except String Unit) (is_enabled : String → Except String Bool)
    (tA tE : String) (hnone : node.exe_function = none)
    (hbar : barrierOk node barrier) (hflag : flagOk node is_enabled)
    (hcond : condOk node) :
    (node.run barrier is_enabled tA tE).perf_stats
      = [(node.name ++ ".awaiting_parents", tA),
         (node.name ++ ".execution", tE)] := by
  have hwork : workOk node := by
    unfold workOk
    rw [hnone]
    trivial
  simp [ComputationalNode.run,
    nodeRunBody_of_barrierOk node barrier is_enabled tA tE hbar,
    runGateFlag_of_flagOk node is_enabled tA tE hflag,
    runGateCond_of_condOk node tA tE hcond,
    runWork_of_workOk node tA tE hwork]

/-- Witness for C10: a concrete work-less node with passing gates. -/
theorem c10_no_work_still_emits_timing_witness :
    (ComputationalNode.run
        { name := "root", parents := [], feature_flag := none,
          exe_function := none, exe_condition := none }
        (.ok ()) (fun _ => .ok true) "0.000" "0.001").perf_stats
      = [("root" ++ ".awaiting_parents", "0.000"),
         ("root" ++ ".execution", "0.001")] :=
  c10_no_work_still_emits_timing _ _ _ _ _ rfl (Or.inl rfl) trivial trivial

/-! ## Graph metrics aggregation (`ComputationalGraph.run`, merge phase) -/

/-- `perf_stats.update(measurement)`: insert every entry of one task's
metrics dict, in its order. -/
def dictUpdate (d m : List (String × String)) : List (String × String) :=
  m.foldl (fun acc kv => dictInsert acc kv.1 kv.2) d

/-- The metrics aggregation of `ComputationalGraph.run`: starting from an
empty dict, fold `perf_stats.update(measurement)` over the awaited task
results in task order, then set `perf_stats['dag.execution']` to the
elapsed-time rendering `t_dag`. -/
def graphMergeMetrics (measurements : List (List (String × String)))
    (t_dag : String) : List (String × String) :=
  dictInsert (measurements.foldl dictUpdate []) "dag.execution" t_dag

/-- Specification-side helper: the value of the last binding of `k` in a
list of entries, if any (last writer wins). -/
def lastBinding (l : List (String × String)) (k : String) : Option String :=
  l.foldl (fun acc kv => if kv.1 = k then some kv.2 else acc) none

theorem lastBinding_foldl (k : String) (l : List (String × String))
    (acc : Option String) :
    l.foldl (fun acc kv => if kv.1 = k then some kv.2 else acc) acc
      = match lastBinding l k with
        | some v => some v
        | none => acc := by
  induction l generalizing acc with
  | nil => simp [lastBinding]
  | cons kv l ih =>
      have ih1 := ih (if kv.1 = k then some kv.2 else acc)
      have ih2 := ih (if kv.1 = k then some kv.2 else none)
      simp only [lastBinding, List.foldl_cons] at ih1 ih2 ⊢
      rw [ih1, ih2]
      cases l.foldl (fun acc kv => if kv.1 = k then some kv.2 else acc) none with
      | none => by_cases h : kv.1 = k <;> simp [h]
      | some v => rfl

theorem lastBinding_append (k : String) (l₁ l₂ : List (String × String)) :
    lastBinding (l₁ ++ l₂) k
      = match lastBinding l₂ k with
        | some v => some v
        | none => lastBinding l₁ k := by
  rw [lastBinding, List.foldl_append]
  exact lastBinding_foldl k l₂ _

theorem dictGet_dictUpdate (d m : List (String × String)) (k : String) :
    dictGet (dictUpdate d m) k
      = match lastBinding m k with
        | some v => some v
        | none => dictGet d k := by
  induction m generalizing d with
  | nil => simp [dictUpdate, lastBinding]
  | cons kv m ih =>
      have hcons : lastBinding (kv :: m) k
          = match lastBinding m k with
            | some v => some v
            | none => if kv.1 = k then some kv.2 else none := by
        rw [lastBinding, List.foldl_cons]
        exact lastBinding_foldl k m _
      rw [dictUpdate, List.foldl_cons, show (m.foldl (fun acc kv => dictInsert acc kv.1 kv.2)
        (dictInsert d kv.1 kv.2)) = dictUpdate (dictInsert d kv.1 kv.2) m from rfl,
        ih, hcons]
      cases lastBinding m k with
      | some v => rfl
      | none =>
          by_cases h : kv.1 = k <;>
            simp [dictGet_dictInsert, h]

theorem dictGet_mergeFold (ms : List (List (String × String)))
    (d : List (String × String)) (k : String) :
    dictGet (ms.foldl dictUpdate d) k
      = match lastBinding ms.flatten k with
        | some v => some v
        | none => dictGet d k := by
  induction ms generalizing d with
  | nil => simp [lastBinding]
  | cons m ms ih =>
      rw [List.foldl_cons, ih, List.flatten_cons, lastBinding_append]
      cases lastBinding ms.flatten k with
      | some v => rfl
      | none => rw [dictGet_dictUpdate]

/-- Claim C6: `Graph.run` merges the gathered per-node metric dicts with
last-writer-wins in task order, then adds `dag.execution`; the merged
mapping always binds `"dag.execution"`, and for every other key the
binding is the last one across the task results, so a later task sharing
a name overwrites an earlier one (witnessed by the concrete conjunct). -/
theorem c6_merge_last_writer_wins :
    (∀ (ms : List (List (String × String))) (t : String),
        dictGet (graphMergeMetrics ms t) "dag.execution" = some t)
    ∧ (∀ (ms : List (List (String × String))) (t k : String), k ≠ "dag.execution" →
        dictGet (graphMergeMetrics ms t) k = lastBinding ms.flatten k)
    ∧ dictGet
        (graphMergeMetrics
          [[("n.awaiting_parents", "0.000"), ("n.execution", "0.010")],
           [("n.awaiting_parents", "0.002"), ("n.execution", "0.020")]]
          "0.030") "n.execution"
      = some "0.020" := by
  refine ⟨?_, ?_, by decide⟩
  · intro ms t
    rw [graphMergeMetrics, dictGet_dictInsert]
    simp
  · intro ms t k h
    rw [graphMergeMetrics, dictGet_dictInsert, if_neg (fun hh => h hh.symm),
      dictGet_mergeFold]
    cases lastBinding ms.flatten k with
    | some v => rfl
    | none => rfl

/-- Witness for C6: the last-writer conjunct at a concrete key. -/
theorem c6_merge_last_writer_wins_witness :
    dictGet (graphMergeMetrics [[("a.execution", "1")]] "9") "a.execution"
      = lastBinding ([[("a.execution", "1")]] : List (List (String × String))).flatten
          "a.execution" :=
  c6_merge_last_writer_wins.2.1 [[("a.execution", "1")]] "9" "a.execution" (by decide)

/-! ## Node construction and edge maintenance
(`ComputationalNode.__init__`, `ComputationalNode.add_child`)

Python objects live on a heap and are distinguished by identity:
`ComputationalNode` defines `__hash__` (by `name::feature_flag`) but no
`__eq__`, so equality between nodes is default object identity.  The
object store below maps each identity (a `Nat`) to the node's mutable
attributes; `__init__` allocates the next identity.  `children` is a
Python set under identity equality, modelled as an identity list with
idempotent insertion (`idSetAdd`), in insertion order. -/

/-- The attributes of a `ComputationalNode` relevant to graph structure.
`parents` and `children` hold object identities. -/
structure NodeObj where
  name : String
  parents : List Nat
  feature_flag : Option String
  children : List Nat
deriving DecidableEq, Repr

/-- The object store: `size` identities are allocated; `objs` gives each
object's current attributes (unallocated identities carry a dummy). -/
structure NodeStore where
  size : Nat
  objs : Nat → NodeObj

/-- The store of a fresh interpreter: nothing allocated. -/
def NodeStore.empty : NodeStore :=
  { size := 0,
    objs := fun _ =>
      { name := "", parents := [], feature_flag := none, children := [] } }

/-- Dereference an object identity. -/
def NodeStore.get (s : NodeStore) (i : Nat) : NodeObj := s.objs i

/-- Assign to the attributes of one object. -/
def NodeStore.set (s : NodeStore) (i : Nat) (n : NodeObj) : NodeStore :=
  { s with objs := fun j => if j = i then n else s.objs j }

/-- `set.add` under identity equality: idempotent insertion. -/
def idSetAdd (l : List Nat) (x : Nat) : List Nat :=
  if x ∈ l then l else l ++ [x]

/-- `ComputationalNode.add_child`: `self.children.add(node)`.  Nothing
else is modified — in particular the child's `parents` list is not
updated. -/
def add_child (s : NodeStore) (self child : Nat) : NodeStore :=
  s.set self
    { s.get self with children := idSetAdd (s.get self).children child }

/-- `ComputationalNode.__init__` (edge-relevant arguments): allocate the
object with the given attributes and empty `children`, then run
`for parent in self.parents: parent.add_child(self)`.  Returns the new
store and the new node's identity. -/
def node_init (s : NodeStore) (name : String) (parents : List Nat)
    (feature_flag : Option String) : NodeStore × Nat :=
  let i := s.size
  let s1 : NodeStore :=
    { size := i + 1,
      objs := fun j =>
        if j = i then
          { name := name, parents := parents, feature_flag := feature_flag,
            children := [] }
        else s.objs j }
  (parents.foldl (fun acc p => add_child acc p i) s1, i)

theorem add_child_get_parents (s : NodeStore) (a b i : Nat) :
    ((add_child s a b).get i).parents = (s.get i).parents := by
  unfold add_child NodeStore.set NodeStore.get
  by_cases h : i = a <;> simp [h]

theorem foldl_add_child_get_parents (l : List Nat) (c : Nat) (s : NodeStore)
    (i : Nat) :
    ((l.foldl (fun acc p => add_child acc p c) s).get i).parents
      = (s.get i).parents := by
  induction l generalizing s with
  | nil => rfl
  | cons q l ih => rw [List.foldl_cons, ih, add_child_get_parents]

theorem mem_idSetAdd_self (l : List Nat) (x : Nat) : x ∈ idSetAdd l x := by
  unfold idSetAdd
  by_cases h : x ∈ l <;> simp [h]

theorem mem_idSetAdd_of_mem (l : List Nat) (x y : Nat) (h : y ∈ l) :
    y ∈ idSetAdd l x := by
  unfold idSetAdd
  by_cases hx : x ∈ l <;> simp [hx, h]

theorem add_child_mem_children (s : NodeStore) (p c : Nat) :
    c ∈ ((add_child s p c).get p).children := by
  unfold add_child NodeStore.set NodeStore.get
  simp [mem_idSetAdd_self]

theorem add_child_children_mono (s : NodeStore) (q c p x : Nat)
    (h : x ∈ (s.get p).children) :
    x ∈ ((add_child s q c).get p).children := by
  unfold add_child NodeStore.set NodeStore.get at *
  by_cases hq : p = q
  · subst hq
    simp [mem_idSetAdd_of_mem _ _ _ h]
  · simp [hq, h]

theorem foldl_add_child_mem (l : List Nat) (c : Nat) (s : NodeStore) (p : Nat)
    (h : c ∈ (s.get p).children) :
    c ∈ ((l.foldl (fun acc q => add_child acc q c) s).get p).children := by
  induction l generalizing s with
  | nil => exact h
  | cons q l ih =>
      rw [List.foldl_cons]
      exact ih _ (add_child_children_mono s q c p c h)

theorem foldl_add_child_mem_of_mem_list (l : List Nat) (c : Nat) :
    ∀ (s : NodeStore) (p : Nat), p ∈ l →
      c ∈ ((l.foldl (fun acc q => add_child acc q c) s).get p).children := by
  induction l with
  | nil =>
      intro s p hp
      cases hp
  | cons q l ih =>
      intro s p hp
      rw [List.foldl_cons]
      rcases List.mem_cons.mp hp with h | h
      · subst h
        exact foldl_add_child_mem l c _ p (add_child_mem_children s p c)
      · exact ih _ p h

/-- C5 counterexample scenario: two freshly constructed parent-less nodes
`p` (identity 0) and `c` (identity 1), then `p.add_child(c)`. -/
def c5Store : NodeStore :=
  let g0 := node_init NodeStore.empty "p" [] none
  let g1 := node_init g0.1 "c" [] none
  add_child g1.1 0 1

/-- Counterexample to claim C5 as stated: after `p.add_child(c)` the edge
exists (`c ∈ p.children`), yet `p ∉ c.parents` — `add_child` does not
update the child's `parents` list, so the claimed symmetric invariant is
false for edges created through `add_child`. -/
theorem c5_counterexample :
    (c5Store.get 0).children = [1] ∧ (0 ∈ (c5Store.get 1).parents → False) := by
  decide

/-- Claim C5 (amended): passing `p` in the parents list of `c`'s
constructor establishes both `c ∈ p.children` and `p ∈ c.parents`;
`p.add_child(c)` establishes only `c ∈ p.children` and leaves `c`'s
`parents` list unchanged. -/
theorem c5_edge_maintenance_amended :
    (∀ (s : NodeStore) (name : String) (parents : List Nat)
        (ff : Option String) (p : Nat), p ∈ parents →
        (node_init s name parents ff).2 ∈
            (((node_init s name parents ff).1).get p).children
        ∧ p ∈ (((node_init s name parents ff).1).get
            (node_init s name parents ff).2).parents)
    ∧ (∀ (s : NodeStore) (p c : Nat),
        c ∈ ((add_child s p c).get p).children
        ∧ ((add_child s p c).get c).parents = (s.get c).parents) := by
  constructor
  · intro s name parents ff p hp
    constructor
    · exact foldl_add_child_mem_of_mem_list parents s.size _ p hp
    · show p ∈ ((parents.foldl (fun acc q => add_child acc q s.size) _).get
          s.size).parents
      rw [foldl_add_child_get_parents]
      simpa [NodeStore.get] using hp
  · intro s p c
    exact ⟨add_child_mem_children s p c, add_child_get_parents s p c c⟩

/-- Witness for the amended C5: a concrete constructor call with a parent
and a concrete `add_child` call. -/
theorem c5_edge_maintenance_amended_witness :
    ((node_init c5Store "k" [0] none).2 ∈
        (((node_init c5Store "k" [0] none).1).get 0).children
      ∧ 0 ∈ (((node_init c5Store "k" [0] none).1).get
          (node_init c5Store "k" [0] none).2).parents)
    ∧ (1 ∈ ((add_child c5Store 1 1).get 1).children
      ∧ ((add_child c5Store 1 1).get 1).parents = (c5Store.get 1).parents) :=
  ⟨c5_edge_maintenance_amended.1 c5Store "k" [0] none 0 (by decide),
   c5_edge_maintenance_amended.2 c5Store 1 1⟩

/-! ## Graph traversal (`ComputationalGraph.run`, BFS phase)

`bfs(root)` appends `root` to `visited` and `queue`, then, while the
queue is non-empty, pops its head and, for each child not yet in
`visited` (a Python list, so `not in` uses the default identity
equality, not `__hash__`), appends the child to `visited` and `queue`
and schedules one task running the child.  Tasks are modelled by the
identity of the node they run; `children` iteration follows the stored
insertion order.  The `while` loop carries explicit fuel; `graphBfs`
supplies `s.size + 1`, which the spec theorem shows is never exhausted
for a well-formed store. -/

/-- The `for a_child in n.children:` body over one popped node's children:
threads `(visited, queue, tasks)`. -/
def bfsVisitChildren (childList : List Nat) (visited queue tasks : List Nat) :
    List Nat × List Nat × List Nat :=
  childList.foldl
    (fun acc c =>
      if c ∈ acc.1 then acc
      else (acc.1 ++ [c], acc.2.1 ++ [c], acc.2.2 ++ [c]))
    (visited, queue, tasks)

/-- The `while queue:` loop of `bfs`: pop the queue head, visit its
children, recurse.  Returns the final `(visited, tasks)`. -/
def bfsLoop (s : NodeStore) : Nat → List Nat → List Nat → List Nat →
    List Nat × List Nat
  | 0, visited, _queue, tasks => (visited, tasks)
  | _fuel + 1, visited, [], tasks => (visited, tasks)
  | fuel + 1, visited, n :: rest, tasks =>
      let step := bfsVisitChildren (s.get n).children visited rest tasks
      bfsLoop s fuel step.1 step.2.1 step.2.2

/-- `bfs(root)` as called by `ComputationalGraph.run`: `visited` and
`queue` start as `[root]`, `tasks` empty. -/
def graphBfs (s : NodeStore) (root : Nat) : List Nat × List Nat :=
  bfsLoop s (s.size + 1) [root] [root] []

/-- Reachability from `root` along `children` edges. -/
inductive Reachable (s : NodeStore) (root : Nat) : Nat → Prop
  | refl : Reachable s root root
  | step {a b : Nat} : Reachable s root a → b ∈ (s.get a).children →
      Reachable s root b

/-- A store is well formed when every allocated node's children are
allocated identities. -/
abbrev WfStore (s : NodeStore) : Prop :=
  ∀ i < s.size, ∀ c ∈ (s.get i).children, c < s.size

theorem length_le_of_nodup_lt (v : List Nat) (n : Nat) (hnd : v.Nodup)
    (hb : ∀ x ∈ v, x < n) : v.length ≤ n := by
  classical
  have hsub : v.toFinset ⊆ Finset.range n := by
    intro x hx
    rw [List.mem_toFinset] at hx
    exact Finset.mem_range.mpr (hb x hx)
  have hcard := Finset.card_le_card hsub
  rw [Finset.card_range] at hcard
  rwa [List.toFinset_card_of_nodup hnd] at hcard

theorem bfsVisitChildren_spec (cl : List Nat) :
    ∀ (v q t : List Nat), v.Nodup →
      ∃ new : List Nat,
        bfsVisitChildren cl v q t = (v ++ new, q ++ new, t ++ new)
        ∧ (∀ c ∈ new, c ∈ cl ∧ c ∉ v)
        ∧ (v ++ new).Nodup
        ∧ (∀ c ∈ cl, c ∈ v ++ new) := by
  induction cl with
  | nil =>
      intro v q t hnd
      exact ⟨[], by simp [bfsVisitChildren], by simp, by simpa using hnd,
        by simp⟩
  | cons c cl ih =>
      intro v q t hnd
      by_cases hc : c ∈ v
      · obtain ⟨new, h1, h2, h3, h4⟩ := ih v q t hnd
        have hstep : bfsVisitChildren (c :: cl) v q t
            = bfsVisitChildren cl v q t := by
          simp [bfsVisitChildren, List.foldl_cons, hc]
        refine ⟨new, hstep.trans h1, ?_, h3, ?_⟩
        · intro x hx
          obtain ⟨hx1, hx2⟩ := h2 x hx
          exact ⟨List.mem_cons_of_mem c hx1, hx2⟩
        · intro x hx
          rcases List.mem_cons.mp hx with h | h
          · subst h
            exact List.mem_append_left _ hc
          · exact h4 x h
      · have hnd' : (v ++ [c]).Nodup := by
          rw [List.nodup_append]
          refine ⟨hnd, List.nodup_singleton c, ?_⟩
          intro a ha hac
          rw [List.mem_singleton] at hac
          subst hac
          exact hc ha
        obtain ⟨new, h1, h2, h3, h4⟩ := ih (v ++ [c]) (q ++ [c]) (t ++ [c]) hnd'
        have hstep : bfsVisitChildren (c :: cl) v q t
            = bfsVisitChildren cl (v ++ [c]) (q ++ [c]) (t ++ [c]) := by
          simp [bfsVisitChildren, List.foldl_cons, hc]
        refine ⟨c :: new, ?_, ?_, ?_, ?_⟩
        · rw [hstep, h1]
          simp
        · intro x hx
          rcases List.mem_cons.mp hx with h | h
          · rw [h]
            exact ⟨List.mem_cons_self c cl, hc⟩
          · obtain ⟨hx1, hx2⟩ := h2 x h
            refine ⟨List.mem_cons_of_mem c hx1, fun hxv => hx2 ?_⟩
            exact List.mem_append_left _ hxv
        · have : v ++ c :: new = (v ++ [c]) ++ new := by simp
          rw [this]
          exact h3
        · intro x hx
          have hrw : v ++ c :: new = (v ++ [c]) ++ new := by simp
          rcases List.mem_cons.mp hx with h | h
          · subst h
            rw [hrw]
            exact List.mem_append_left _ (List.mem_append_right _ (by simp))
          · rw [hrw]
            exact h4 x h

theorem bfs_exit_complete (s : NodeStore) (root : Nat) (v : List Nat)
    (hclosed : ∀ x ∈ v, ∀ c ∈ (s.get x).children, c ∈ v)
    (hroot : root ∈ v) :
    ∀ x, Reachable s root x → x ∈ v := by
  intro x hx
  induction hx with
  | refl => exact hroot
  | step _ hc ih => exact hclosed _ ih _ hc

theorem bfsLoop_spec (s : NodeStore) (root : Nat) (hwf : WfStore s) :
    ∀ (fuel : Nat) (v q t : List Nat),
      (∀ x ∈ q, x ∈ v) →
      v.Nodup →
      (∀ x ∈ v, x < s.size) →
      (∀ x ∈ v, x ∉ q → ∀ c ∈ (s.get x).children, c ∈ v) →
      (∀ x ∈ v, Reachable s root x) →
      root ∈ v →
      v = root :: t →
      q.length + (s.size - v.length) ≤ fuel →
      ((bfsLoop s fuel v q t).1 = root :: (bfsLoop s fuel v q t).2)
      ∧ (bfsLoop s fuel v q t).1.Nodup
      ∧ (∀ x, x ∈ (bfsLoop s fuel v q t).1 ↔ Reachable s root x) := by
  intro fuel
  induction fuel with
  | zero =>
      intro v q t hqv hnd hb hcl hreach hrootmem hvt hfuel
      have hq : q = [] := List.length_eq_zero.mp (by omega)
      subst hq
      refine ⟨hvt, hnd, fun x => ⟨fun hx => hreach x hx, ?_⟩⟩
      exact fun hx => bfs_exit_complete s root v
        (fun y hy c hc => hcl y hy (by simp) c hc) hrootmem x hx
  | succ fuel ih =>
      intro v q t hqv hnd hb hcl hreach hrootmem hvt hfuel
      cases q with
      | nil =>
          refine ⟨hvt, hnd, fun x => ⟨fun hx => hreach x hx, ?_⟩⟩
          exact fun hx => bfs_exit_complete s root v
            (fun y hy c hc => hcl y hy (by simp) c hc) hrootmem x hx
      | cons n rest =>
          have hn_v : n ∈ v := hqv n (List.mem_cons_self n rest)
          have hn_lt : n < s.size := hb n hn_v
          obtain ⟨new, heq, hnewmem, hnewnd, hallchild⟩ :=
            bfsVisitChildren_spec (s.get n).children v rest t hnd
          have hunfold : bfsLoop s (fuel + 1) v (n :: rest) t
              = bfsLoop s fuel (v ++ new) (rest ++ new) (t ++ new) := by
            simp only [bfsLoop, heq]
          rw [hunfold]
          apply ih (v ++ new) (rest ++ new) (t ++ new)
          · intro x hx
            rcases List.mem_append.mp hx with h | h
            · exact List.mem_append_left _ (hqv x (List.mem_cons_of_mem n h))
            · exact List.mem_append_right _ h
          · exact hnewnd
          · intro x hx
            rcases List.mem_append.mp hx with h | h
            · exact hb x h
            · exact hwf n hn_lt x (hnewmem x h).1
          · intro x hx hxq
            rcases List.mem_append.mp hx with h | h
            · by_cases hxn : x = n
              · subst hxn
                exact fun c hc => hallchild c hc
              · have hxrest : x ∉ rest :=
                  fun hr => hxq (List.mem_append_left _ hr)
                have hxnr : x ∉ n :: rest := by
                  intro hmem
                  rcases List.mem_cons.mp hmem with h' | h'
                  · exact hxn h'
                  · exact hxrest h'
                exact fun c hc => List.mem_append_left _ (hcl x h hxnr c hc)
            · exact absurd (List.mem_append_right rest h) hxq
          · intro x hx
            rcases List.mem_append.mp hx with h | h
            · exact hreach x h
            · exact Reachable.step (hreach n hn_v) (hnewmem x h).1
          · exact List.mem_append_left _ hrootmem
          · rw [hvt]
            rfl
          · have hlen : (v ++ new).length ≤ s.size :=
              length_le_of_nodup_lt (v ++ new) s.size hnewnd
                (by
                  intro x hx
                  rcases List.mem_append.mp hx with h | h
                  · exact hb x h
                  · exact hwf n hn_lt x (hnewmem x h).1)
            simp only [List.length_append, List.length_cons] at hfuel hlen ⊢
            omega

/-- BFS scenario with two distinct nodes of identical name and feature
flag: a root (identity 0) whose children are the twins 1 and 2. -/
def c3DupStore : NodeStore :=
  let g0 := node_init NodeStore.empty "root" [] none
  let g1 := node_init g0.1 "dup" [] (some "f")
  let g2 := node_init g1.1 "dup" [] (some "f")
  add_child (add_child g2.1 0 1) 0 2

/-- Claim C3: on a well-formed store, `Graph.run`'s BFS visits exactly the
nodes reachable from `root`, each exactly once (`visited` is duplicate
free), and schedules exactly one task per visited node other than `root`
(`visited = root :: tasks`, so the tasks are the non-root visited nodes
in visit order).  Deduplication is by object identity: in the concrete
conjunct, the two distinct twin nodes share a name and feature flag yet
are each visited and each scheduled once. -/
theorem c3_bfs_visits_each_reachable_once (s : NodeStore) (root : Nat)
    (hwf : WfStore s) (hroot : root < s.size) :
    ((∀ x, x ∈ (graphBfs s root).1 ↔ Reachable s root x)
      ∧ (graphBfs s root).1.Nodup
      ∧ (graphBfs s root).1 = root :: (graphBfs s root).2)
    ∧ ((graphBfs c3DupStore 0).1 = [0, 1, 2]
      ∧ (graphBfs c3DupStore 0).2 = [1, 2]
      ∧ (c3DupStore.get 1).name = (c3DupStore.get 2).name
      ∧ (c3DupStore.get 1).feature_flag = (c3DupStore.get 2).feature_flag) := by
  constructor
  · have h := bfsLoop_spec s root hwf (s.size + 1) [root] [root] []
      (by intro x hx; exact hx)
      (List.nodup_singleton root)
      (by
        intro x hx
        rw [List.mem_singleton] at hx
        subst hx
        exact hroot)
      (by
        intro x hx hnx
        rw [List.mem_singleton] at hx
        subst hx
        exact absurd (List.mem_singleton_self x) hnx)
      (by
        intro x hx
        rw [List.mem_singleton] at hx
        subst hx
        exact Reachable.refl)
      (List.mem_singleton_self root)
      rfl
      (by simp; omega)
    exact ⟨h.2.2, h.2.1, h.1⟩
  · refine ⟨by decide, by decide, by decide, by decide⟩

/-- Witness for C3: the general conjuncts applied to the concrete twin
store (its well-formedness discharged by evaluation). -/
theorem c3_bfs_visits_each_reachable_once_witness :
    ((graphBfs c3DupStore 0).1.Nodup
      ∧ (graphBfs c3DupStore 0).1 = 0 :: (graphBfs c3DupStore 0).2) :=
  ⟨(c3_bfs_visits_each_reachable_once c3DupStore 0 (by decide) (by decide)).1.2.1,
   (c3_bfs_visits_each_reachable_once c3DupStore 0 (by decide) (by decide)).1.2.2⟩

end Igo
